import Mathlib

/-!
Shallow embedding of the gremgo connection pool (src/pool.go).

The pool hands out `PooledConnection` handles wrapping a `Client`; it keeps an
ordered idle list of previously returned connections, an `Active` counter, a
`MaxActive` bound (0 means unlimited) and an `IdleTimeout` duration.

Modelling choices:
- `time.Time` and `time.Duration` are both modelled as `Int` (nanoseconds);
  `t.Add(timeout).After(now)` becomes `now < t + timeout`.
- `Client.Close()` is modelled as appending the client to a ghost `closed`
  trace field on the pool (the pool is the only closer in this file).
- `sync.Cond` is modelled by a `condInit` flag (`cond != nil`) and a ghost
  `signals` counter bumped by `cond.Signal()`.
- `Pool.Get` is a function of the pool state, the current time and the
  outcome the dial collaborator would produce at this invocation; a `Get`
  that reaches `cond.Wait()` is the `blocked` outcome (in the sequential
  semantics nothing can wake it).
-/

namespace Gremgo

/-- The raw connection handed out by the dial collaborator: an identity plus
the caller-settable `Errored` health flag (the only field the pool reads). -/
structure Client where
  id : Nat
  Errored : Bool
  deriving DecidableEq, Repr

/-- An entry of the pool's idle list: the returned client together with the
time `t` at which it was idled (src/pool.go `idleConnection`). -/
structure idleConnection where
  pc : Client
  t : Int
  deriving DecidableEq, Repr

/-- The pool state (src/pool.go `Pool`), with the ghost fields `closed`
(clients whose `Close()` the pool invoked, in invocation order) and
`signals` (number of `cond.Signal()` calls); `condInit` models
`cond != nil`. -/
structure Pool where
  MaxActive : Int
  IdleTimeout : Int
  idle : List idleConnection
  Active : Int
  condInit : Bool
  closed : List Client
  signals : Nat
  deriving DecidableEq, Repr

/-- `Pool.put`: prepend the connection, stamped with the current time, to the
front of the idle slice. -/
def Pool.put (p : Pool) (c : Client) (now : Int) : Pool :=
  { p with idle := ⟨c, now⟩ :: p.idle }

/-- The body of `purge`'s `for` loop over the idle slice: errored entries are
skipped (dropped without `Close`), entries still within the timeout are kept
in `valid`, and the rest are closed. Returns (valid, closed-in-order). -/
def purgeLoop (timeout now : Int) : List idleConnection → List idleConnection × List Client
  | [] => ([], [])
  | v :: rest =>
    let r := purgeLoop timeout now rest
    if v.pc.Errored then r
    else if now < v.t + timeout then (v :: r.1, r.2)
    else (r.1, v.pc :: r.2)

/-- `Pool.purge`: when `IdleTimeout > 0`, rebuild the idle list through
`purgeLoop` and record the closed clients; otherwise do nothing. -/
def Pool.purge (p : Pool) (now : Int) : Pool :=
  if 0 < p.IdleTimeout then
    let r := purgeLoop p.IdleTimeout now p.idle
    { p with idle := r.1, closed := p.closed ++ r.2 }
  else p

/-- `Pool.release`: decrement `Active` and, when the condition variable
exists, signal one waiter. -/
def Pool.release (p : Pool) : Pool :=
  { p with Active := p.Active - 1,
           signals := if p.condInit then p.signals + 1 else p.signals }

/-- `Pool.first`: the front of the idle slice, or `none` when it is empty. -/
def Pool.first (p : Pool) : Option idleConnection :=
  match p.idle with
  | [] => none
  | v :: _ => some v

/-- Outcome of one `Pool.Get` call: a handle wrapping a client, a propagated
dial error, or parking on `cond.Wait()` with no one to wake it. Each
outcome carries the pool state left behind. -/
inductive GetResult where
  | ok (c : Client) (p : Pool)
  | failed (e : Int) (p : Pool)
  | blocked (p : Pool)
  deriving DecidableEq, Repr

/-- `Pool.Get`: purge, then either pop the front idle entry, or (when
`MaxActive == 0 || Active < MaxActive`) optimistically count and dial —
compensating with `release` if the dial fails — or park on the condition
variable. `dialResult` is the outcome the dial collaborator produces at this
invocation. -/
def Pool.Get (p : Pool) (now : Int) (dialResult : Except Int Client) : GetResult :=
  let p1 := p.purge now
  match p1.first with
  | some conn =>
      .ok conn.pc { p1 with idle := p1.idle.tail, Active := p1.Active + 1 }
  | none =>
      if p1.MaxActive = 0 ∨ p1.Active < p1.MaxActive then
        match dialResult with
        | .ok dc => .ok dc { p1 with Active := p1.Active + 1 }
        | .error e => .failed e ({ p1 with Active := p1.Active + 1 }.release)
      else
        .blocked { p1 with condInit := true }

/-- `PooledConnection.Close`: return the handle's connection to the pool
(`put` then `release`), under the pool lock. -/
def PooledConnection.Close (p : Pool) (c : Client) (now : Int) : Pool :=
  (p.put c now).release

/-- `CreatePool`: fresh pool with the given dial timeout and the hardcoded
`MaxActive = 10` default. -/
def CreatePool (timeout : Int) : Pool :=
  { MaxActive := 10, IdleTimeout := timeout, idle := [], Active := 0,
    condInit := false, closed := [], signals := 0 }

/-- The pool paired with the ghost number of outstanding (acquired and not
yet released) handles and the last time at which an operation ran. -/
structure PState where
  pool : Pool
  outstanding : Nat
  lastTime : Int
  deriving Repr

/-- A fresh pool with arbitrary `MaxActive`, no idle connections and nothing
outstanding, at time `t0`. -/
def initState (maxActive timeout t0 : Int) : PState :=
  { pool := { MaxActive := maxActive, IdleTimeout := timeout, idle := [],
              Active := 0, condInit := false, closed := [], signals := 0 },
    outstanding := 0, lastTime := t0 }

/-- One pool operation at a non-decreasing clock: a `Get` with any of its
three outcomes, or a handle `Close`, which is only enabled while a handle is
outstanding (each handle is released at most once). -/
inductive Step : PState → PState → Prop where
  | getOk {s : PState} {now : Int} {d : Except Int Client} {c : Client} {p' : Pool} :
      s.lastTime ≤ now → s.pool.Get now d = .ok c p' →
      Step s ⟨p', s.outstanding + 1, now⟩
  | getFailed {s : PState} {now : Int} {d : Except Int Client} {e : Int} {p' : Pool} :
      s.lastTime ≤ now → s.pool.Get now d = .failed e p' →
      Step s ⟨p', s.outstanding, now⟩
  | getBlocked {s : PState} {now : Int} {d : Except Int Client} {p' : Pool} :
      s.lastTime ≤ now → s.pool.Get now d = .blocked p' →
      Step s ⟨p', s.outstanding, now⟩
  | closeHandle {s : PState} {c : Client} {now : Int} :
      s.lastTime ≤ now → 0 < s.outstanding →
      Step s ⟨PooledConnection.Close s.pool c now, s.outstanding - 1, now⟩

/-- States reachable from a fresh pool by well-formed operation sequences. -/
inductive Reach (maxActive timeout t0 : Int) : PState → Prop where
  | init : Reach maxActive timeout t0 (initState maxActive timeout t0)
  | step {s s' : PState} : Reach maxActive timeout t0 s → Step s s' →
      Reach maxActive timeout t0 s'

/-- The pool state an outcome of `Get` leaves behind. -/
def GetResult.pool : GetResult → Pool
  | .ok _ p => p
  | .failed _ p => p
  | .blocked p => p

/-- The `valid` list built by `purge`'s loop keeps exactly the non-errored
entries still inside the timeout, in order. -/
theorem purgeLoop_fst (timeout now : Int) (l : List idleConnection) :
    (purgeLoop timeout now l).1 =
      l.filter (fun v => !v.pc.Errored && decide (now < v.t + timeout)) := by
  induction l with
  | nil => rfl
  | cons v rest ih =>
    simp only [purgeLoop, List.filter_cons]
    by_cases he : v.pc.Errored
    · simp [he, ih]
    · by_cases ht : now < v.t + timeout
      · simp [he, ht, ih]
      · simp [he, ht, ih]

/-- The clients closed by `purge`'s loop are exactly the non-errored entries
past the timeout, in order. -/
theorem purgeLoop_snd (timeout now : Int) (l : List idleConnection) :
    (purgeLoop timeout now l).2 =
      (l.filter (fun v => !v.pc.Errored && !decide (now < v.t + timeout))).map
        (fun v => v.pc) := by
  induction l with
  | nil => rfl
  | cons v rest ih =>
    simp only [purgeLoop, List.filter_cons]
    by_cases he : v.pc.Errored
    · simp [he, ih]
    · by_cases ht : now < v.t + timeout
      · simp [he, ht, ih]
      · simp [he, ht, ih]

@[simp] theorem purge_MaxActive (p : Pool) (now : Int) :
    (p.purge now).MaxActive = p.MaxActive := by
  unfold Pool.purge; split <;> rfl

@[simp] theorem purge_IdleTimeout (p : Pool) (now : Int) :
    (p.purge now).IdleTimeout = p.IdleTimeout := by
  unfold Pool.purge; split <;> rfl

@[simp] theorem purge_Active (p : Pool) (now : Int) :
    (p.purge now).Active = p.Active := by
  unfold Pool.purge; split <;> rfl

@[simp] theorem purge_condInit (p : Pool) (now : Int) :
    (p.purge now).condInit = p.condInit := by
  unfold Pool.purge; split <;> rfl

@[simp] theorem purge_signals (p : Pool) (now : Int) :
    (p.purge now).signals = p.signals := by
  unfold Pool.purge; split <;> rfl

/-- What `purge` does to the idle list. -/
theorem purge_idle (p : Pool) (now : Int) :
    (p.purge now).idle =
      if 0 < p.IdleTimeout then
        p.idle.filter (fun v => !v.pc.Errored && decide (now < v.t + p.IdleTimeout))
      else p.idle := by
  unfold Pool.purge
  split <;> rename_i h <;> simp [purgeLoop_fst, h]

/-- What `purge` does to the ghost closed trace. -/
theorem purge_closed (p : Pool) (now : Int) :
    (p.purge now).closed =
      if 0 < p.IdleTimeout then
        p.closed ++
          (p.idle.filter (fun v => !v.pc.Errored && !decide (now < v.t + p.IdleTimeout))).map
            (fun v => v.pc)
      else p.closed := by
  unfold Pool.purge
  split <;> rename_i h <;> simp [purgeLoop_snd, h]

/-- `purge` only ever removes idle entries. -/
theorem purge_idle_sublist (p : Pool) (now : Int) :
    (p.purge now).idle.Sublist p.idle := by
  rw [purge_idle]
  split
  · exact List.filter_sublist _
  · exact List.Sublist.refl _

theorem purge_idle_length_le (p : Pool) (now : Int) :
    (p.purge now).idle.length ≤ p.idle.length :=
  (purge_idle_sublist p now).length_le

/-- Inversion of a successful `Get`: the handle came from the front of the
post-purge idle list, or from a dial made with spare capacity. -/
theorem Get_ok_elim {p : Pool} {now : Int} {d : Except Int Client} {c : Client}
    {p' : Pool} (h : p.Get now d = .ok c p') :
    (∃ conn rest, (p.purge now).idle = conn :: rest ∧ c = conn.pc ∧
        p' = { p.purge now with idle := rest, Active := (p.purge now).Active + 1 }) ∨
    ((p.purge now).idle = [] ∧
        ((p.purge now).MaxActive = 0 ∨ (p.purge now).Active < (p.purge now).MaxActive) ∧
        d = .ok c ∧
        p' = { p.purge now with Active := (p.purge now).Active + 1 }) := by
  simp only [Pool.Get, Pool.first] at h
  cases hi : (p.purge now).idle with
  | cons conn rest =>
    left
    simp only [hi, List.tail_cons, GetResult.ok.injEq] at h
    exact ⟨conn, rest, rfl, h.1.symm, h.2.symm⟩
  | nil =>
    right
    simp only [hi] at h
    by_cases hc : (p.purge now).MaxActive = 0 ∨ (p.purge now).Active < (p.purge now).MaxActive
    · rw [if_pos hc] at h
      cases d with
      | ok dc =>
        simp only [GetResult.ok.injEq] at h
        refine ⟨rfl, hc, by rw [h.1], ?_⟩
        simp only [hi]
        exact h.2.symm
      | error e => simp at h
    · rw [if_neg hc] at h
      simp at h

/-- Inversion of a failed `Get`: the idle list was empty after the purge,
there was spare capacity, and the dial failed with the propagated error. -/
theorem Get_failed_elim {p : Pool} {now : Int} {d : Except Int Client} {e : Int}
    {p' : Pool} (h : p.Get now d = .failed e p') :
    (p.purge now).idle = [] ∧
    ((p.purge now).MaxActive = 0 ∨ (p.purge now).Active < (p.purge now).MaxActive) ∧
    d = .error e ∧
    p' = ({ p.purge now with Active := (p.purge now).Active + 1 }).release := by
  simp only [Pool.Get, Pool.first] at h
  cases hi : (p.purge now).idle with
  | cons conn rest => simp only [hi] at h; simp at h
  | nil =>
    simp only [hi] at h
    by_cases hc : (p.purge now).MaxActive = 0 ∨ (p.purge now).Active < (p.purge now).MaxActive
    · rw [if_pos hc] at h
      cases d with
      | ok dc => simp at h
      | error e0 =>
        simp only [GetResult.failed.injEq] at h
        refine ⟨rfl, hc, by rw [h.1], ?_⟩
        simp only [hi]
        exact h.2.symm
    · rw [if_neg hc] at h
      simp at h

/-- Inversion of a blocked `Get`: no idle connection survived the purge and
no capacity remained. -/
theorem Get_blocked_elim {p : Pool} {now : Int} {d : Except Int Client}
    {p' : Pool} (h : p.Get now d = .blocked p') :
    (p.purge now).idle = [] ∧
    ¬ ((p.purge now).MaxActive = 0 ∨ (p.purge now).Active < (p.purge now).MaxActive) ∧
    p' = { p.purge now with condInit := true } := by
  simp only [Pool.Get, Pool.first] at h
  cases hi : (p.purge now).idle with
  | cons conn rest => simp only [hi] at h; simp at h
  | nil =>
    simp only [hi] at h
    by_cases hc : (p.purge now).MaxActive = 0 ∨ (p.purge now).Active < (p.purge now).MaxActive
    · rw [if_pos hc] at h
      cases d with
      | ok dc => simp at h
      | error e0 => simp at h
    · rw [if_neg hc] at h
      simp only [GetResult.blocked.injEq] at h
      refine ⟨rfl, hc, ?_⟩
      simp only [hi]
      exact h.symm

/-- Core accounting invariant: `Active` mirrors the number of outstanding
handles, and when `MaxActive` is positive, `Active` plus the idle-list
length stays within it. -/
def PoolInv (s : PState) : Prop :=
  s.pool.Active = (s.outstanding : Int) ∧
  (0 < s.pool.MaxActive → s.pool.Active + s.pool.idle.length ≤ s.pool.MaxActive)

theorem reach_poolInv {ma tm t0 : Int} {s : PState} (h : Reach ma tm t0 s) :
    PoolInv s := by
  induction h with
  | init => exact ⟨rfl, fun hm => by simp [initState] at hm ⊢; omega⟩
  | @step s1 s2 hr hs ih =>
    obtain ⟨ih1, ih2⟩ := ih
    cases hs with
    | @getOk now d c p' hle hg =>
      rcases Get_ok_elim hg with ⟨conn, rest, hi, hcq, hp'⟩ | ⟨hi, hcap, hd, hp'⟩
      · have hlen : rest.length + 1 ≤ s1.pool.idle.length := by
          have h1 := purge_idle_length_le s1.pool now
          rw [hi] at h1
          simpa using h1
        subst hp'
        refine ⟨?_, fun hm => ?_⟩
        · simp only [purge_Active]
          omega
        · have := ih2 (by simpa using hm)
          simp only [purge_Active, purge_MaxActive]
          simp only [purge_MaxActive] at hm
          omega
      · subst hp'
        refine ⟨?_, fun hm => ?_⟩
        · simp only [purge_Active]
          omega
        · simp only [purge_MaxActive] at hm
          simp only [purge_Active, purge_MaxActive, hi, List.length_nil]
          rcases hcap with h0 | hlt
          · rw [purge_MaxActive] at h0
            omega
          · rw [purge_Active, purge_MaxActive] at hlt
            omega
    | @getFailed now d e p' hle hg =>
      obtain ⟨hi, hcap, hd, hp'⟩ := Get_failed_elim hg
      subst hp'
      refine ⟨?_, fun hm => ?_⟩
      · simp only [Pool.release, purge_Active]
        omega
      · have := ih2 (by simpa using hm)
        simp only [Pool.release, purge_Active, purge_MaxActive, hi, List.length_nil]
        omega
    | @getBlocked now d p' hle hg =>
      obtain ⟨hi, hcap, hp'⟩ := Get_blocked_elim hg
      subst hp'
      refine ⟨?_, fun hm => ?_⟩
      · simp only [purge_Active]
        omega
      · have := ih2 (by simpa using hm)
        simp only [purge_Active, purge_MaxActive, hi, List.length_nil]
        omega
    | @closeHandle c now hle hout =>
      refine ⟨?_, fun hm => ?_⟩
      · simp only [PooledConnection.Close, Pool.put, Pool.release]
        omega
      · have := ih2 (by simpa [PooledConnection.Close, Pool.put, Pool.release] using hm)
        simp only [PooledConnection.Close, Pool.put, Pool.release, List.length_cons]
        omega

/-- Ordering invariant: the idle list is sorted by idled-at time, newest
first, and no idle entry postdates the last operation. -/
def IdleSorted (s : PState) : Prop :=
  s.pool.idle.Pairwise (fun a b => b.t ≤ a.t) ∧ ∀ v ∈ s.pool.idle, v.t ≤ s.lastTime

theorem reach_idleSorted {ma tm t0 : Int} {s : PState} (h : Reach ma tm t0 s) :
    IdleSorted s := by
  induction h with
  | init => exact ⟨List.Pairwise.nil, by simp [initState]⟩
  | @step s1 s2 hr hs ih =>
    obtain ⟨ihp, ihm⟩ := ih
    cases hs with
    | @getOk now d c p' hle hg =>
      rcases Get_ok_elim hg with ⟨conn, rest, hi, hcq, hp'⟩ | ⟨hi, hcap, hd, hp'⟩
      · have hsub : ((s1.pool.purge now).idle).Sublist s1.pool.idle :=
          purge_idle_sublist s1.pool now
        have hpp : ((s1.pool.purge now).idle).Pairwise (fun a b => b.t ≤ a.t) :=
          ihp.sublist hsub
        rw [hi] at hpp
        subst hp'
        refine ⟨(List.pairwise_cons.mp hpp).2, fun v hv => ?_⟩
        have hmem : v ∈ s1.pool.idle := by
          refine hsub.subset ?_
          rw [hi]
          exact List.mem_cons_of_mem conn hv
        exact le_trans (ihm v hmem) hle
      · subst hp'
        refine ⟨?_, fun v hv => ?_⟩
        · simp only [hi]
          exact List.Pairwise.nil
        · rw [hi] at hv
          cases hv
    | @getFailed now d e p' hle hg =>
      obtain ⟨hi, hcap, hd, hp'⟩ := Get_failed_elim hg
      subst hp'
      refine ⟨?_, fun v hv => ?_⟩
      · simp only [Pool.release, hi]
        exact List.Pairwise.nil
      · simp only [Pool.release, hi] at hv
        cases hv
    | @getBlocked now d p' hle hg =>
      obtain ⟨hi, hcap, hp'⟩ := Get_blocked_elim hg
      subst hp'
      refine ⟨?_, fun v hv => ?_⟩
      · simp only [hi]
        exact List.Pairwise.nil
      · simp only [hi] at hv
        cases hv
    | @closeHandle c now hle hout =>
      refine ⟨?_, fun v hv => ?_⟩
      · simp only [PooledConnection.Close, Pool.put, Pool.release]
        exact List.pairwise_cons.mpr ⟨fun b hb => le_trans (ihm b hb) hle, ihp⟩
      · simp only [PooledConnection.Close, Pool.put, Pool.release, List.mem_cons] at hv
        rcases hv with hv | hv
        · simp [hv]
        · exact le_trans (ihm v hv) hle

/-- A `Get` whose post-purge idle list starts with `conn` pops `conn`. -/
theorem Get_ok_of_idle_cons {p : Pool} {now : Int} {d : Except Int Client}
    {conn : idleConnection} {rest : List idleConnection}
    (h : (p.purge now).idle = conn :: rest) :
    p.Get now d =
      .ok conn.pc { p.purge now with idle := rest, Active := (p.purge now).Active + 1 } := by
  simp only [Pool.Get, Pool.first, h, List.tail_cons]

/-- A pool with one handle checked out, no idle entries and `IdleTimeout = 0`. -/
def cexPool1 : Pool :=
  { MaxActive := 10, IdleTimeout := 0, idle := [], Active := 1,
    condInit := false, closed := [], signals := 0 }

/-- C1 counterexample: with `IdleTimeout = 0`, `purge` is a no-op, so a
connection released with its errored flag set is handed straight out by the
next `Get` — `Get` returns a handle wrapping an errored connection. -/
theorem released_errored_client_is_handed_out :
    (PooledConnection.Close cexPool1 ⟨0, true⟩ 0).Get 1 (Except.error 0) =
      .ok ⟨0, true⟩ { MaxActive := 10, IdleTimeout := 0, idle := [], Active := 1,
                      condInit := false, closed := [], signals := 0 } ∧
    (⟨0, true⟩ : Client).Errored = true :=
  ⟨by decide, rfl⟩

/-- C1 (amended): provided `IdleTimeout > 0` (so that every `Get` starts with
a purge that drops errored idle entries) and the dial collaborator only
produces non-errored connections, every successful `Get` returns a handle
wrapping a connection whose errored flag is not set — in particular a
connection released errored is never handed out. -/
theorem get_never_returns_errored_client (p : Pool) (now : Int)
    (d : Except Int Client) (c : Client) (p' : Pool)
    (htimeout : 0 < p.IdleTimeout)
    (hdial : ∀ dc, d = Except.ok dc → dc.Errored = false)
    (h : p.Get now d = .ok c p') :
    c.Errored = false := by
  rcases Get_ok_elim h with ⟨conn, rest, hi, hcq, hp'⟩ | ⟨hi, hcap, hd, hp'⟩
  · rw [purge_idle, if_pos htimeout] at hi
    have hmem : conn ∈ p.idle.filter
        (fun v => !v.pc.Errored && decide (now < v.t + p.IdleTimeout)) := by
      rw [hi]
      exact List.mem_cons_self conn rest
    have hpred := List.of_mem_filter hmem
    subst hcq
    simp only [Bool.and_eq_true, Bool.not_eq_true', decide_eq_true_eq] at hpred
    exact hpred.1
  · exact hdial c hd

/-- Pool used to instantiate the amended C1 theorem. -/
def witPool1 : Pool :=
  { MaxActive := 10, IdleTimeout := 5, idle := [⟨⟨3, false⟩, 0⟩], Active := 0,
    condInit := false, closed := [], signals := 0 }

/-- Pool state left behind by the `Get` in the C1 witness. -/
def witPool1After : Pool :=
  { MaxActive := 10, IdleTimeout := 5, idle := [], Active := 1,
    condInit := false, closed := [], signals := 0 }

/-- C1 witness: the amended theorem applied to a concrete pool whose idle
list holds one fresh non-errored connection. -/
theorem get_never_returns_errored_client_witness :
    0 < witPool1.IdleTimeout ∧
    witPool1.Get 2 (Except.error 0) = .ok ⟨3, false⟩ witPool1After ∧
    (⟨3, false⟩ : Client).Errored = false :=
  ⟨by decide, by decide,
   get_never_returns_errored_client witPool1 2 (Except.error 0) ⟨3, false⟩
     witPool1After (by decide) (fun dc hdc => nomatch hdc) (by decide)⟩

/-- C2: along every well-formed operation sequence (each handle released at
most once, encoded by the `Step`/`Reach` relation), the pool's `Active`
counter is never negative, and when `MaxActive > 0` it never exceeds
`MaxActive`. -/
theorem active_counter_bounds (ma tm t0 : Int) (s : PState)
    (h : Reach ma tm t0 s) :
    0 ≤ s.pool.Active ∧
    (0 < s.pool.MaxActive → s.pool.Active ≤ s.pool.MaxActive) := by
  obtain ⟨h1, h2⟩ := reach_poolInv h
  refine ⟨by omega, fun hm => ?_⟩
  have h3 := h2 hm
  omega

/-- C2 witness: the bound instantiated at a concrete reachable state. -/
theorem active_counter_bounds_witness :
    0 ≤ (initState 5 3 0).pool.Active ∧
    (0 < (initState 5 3 0).pool.MaxActive →
      (initState 5 3 0).pool.Active ≤ (initState 5 3 0).pool.MaxActive) :=
  active_counter_bounds 5 3 0 (initState 5 3 0) Reach.init

/-- C3: when the dial collaborator fails, `Get` returns the dial error
unchanged, restores `Active` to its pre-increment value (which `purge` never
touched, so also its pre-`Get` value), signals one waiter when the condition
variable exists, and leaves every other field — in particular the idle list —
exactly as it was at the moment the dial was invoked (after the initial
purge). -/
theorem dial_failure_rollback (p : Pool) (now eIn e : Int) (p' : Pool)
    (h : p.Get now (Except.error eIn) = .failed e p') :
    e = eIn ∧
    p'.Active = p.Active ∧
    p'.idle = (p.purge now).idle ∧
    p'.MaxActive = p.MaxActive ∧
    p'.IdleTimeout = p.IdleTimeout ∧
    p'.condInit = p.condInit ∧
    p'.closed = (p.purge now).closed ∧
    p'.signals = (if p.condInit then p.signals + 1 else p.signals) := by
  obtain ⟨hi, hcap, hd, hp'⟩ := Get_failed_elim h
  injection hd with he
  subst hp'
  refine ⟨he.symm, ?_, ?_, ?_, ?_, ?_, ?_, ?_⟩
  · simp only [Pool.release, purge_Active]
    omega
  · simp [Pool.release]
  · simp [Pool.release, purge_MaxActive]
  · simp [Pool.release, purge_IdleTimeout]
  · simp [Pool.release, purge_condInit]
  · simp [Pool.release, purge_closed]
  · simp [Pool.release, purge_condInit, purge_signals]

/-- C3 witness: the rollback theorem applied to a failing dial on a fresh
pool. -/
theorem dial_failure_rollback_witness :
    (42:Int) = 42 ∧
    (CreatePool 0).Active = (CreatePool 0).Active ∧
    (CreatePool 0).idle = ((CreatePool 0).purge 7).idle ∧
    (CreatePool 0).MaxActive = (CreatePool 0).MaxActive ∧
    (CreatePool 0).IdleTimeout = (CreatePool 0).IdleTimeout ∧
    (CreatePool 0).condInit = (CreatePool 0).condInit ∧
    (CreatePool 0).closed = ((CreatePool 0).purge 7).closed ∧
    (CreatePool 0).signals =
      (if (CreatePool 0).condInit then (CreatePool 0).signals + 1
       else (CreatePool 0).signals) :=
  dial_failure_rollback (CreatePool 0) 7 42 42 (CreatePool 0) (by decide)

/-- C4: releasing a non-errored connection `c` and then acquiring, before the
idle timeout has elapsed (or with no timeout at all), hands back a handle
wrapping the same connection `c` — the LIFO round-trip. -/
theorem release_then_acquire_returns_same_client (p : Pool) (c : Client)
    (t1 t2 : Int) (d : Except Int Client)
    (herr : c.Errored = false)
    (hfresh : p.IdleTimeout ≤ 0 ∨ t2 < t1 + p.IdleTimeout) :
    ∃ p', (PooledConnection.Close p c t1).Get t2 d = .ok c p' := by
  have hqidle : (PooledConnection.Close p c t1).idle = ⟨c, t1⟩ :: p.idle := by
    simp [PooledConnection.Close, Pool.put, Pool.release]
  have hqt : (PooledConnection.Close p c t1).IdleTimeout = p.IdleTimeout := by
    simp [PooledConnection.Close, Pool.put, Pool.release]
  by_cases ht : 0 < (PooledConnection.Close p c t1).IdleTimeout
  · have hkeep : (!c.Errored &&
        decide (t2 < t1 + (PooledConnection.Close p c t1).IdleTimeout)) = true := by
      rw [herr, hqt]
      simp only [Bool.not_false, Bool.true_and, decide_eq_true_eq]
      rcases hfresh with h0 | h1
      · rw [hqt] at ht
        omega
      · exact h1
    have hco : ((PooledConnection.Close p c t1).purge t2).idle =
        ⟨c, t1⟩ :: p.idle.filter (fun v => !v.pc.Errored &&
          decide (t2 < v.t + (PooledConnection.Close p c t1).IdleTimeout)) := by
      rw [purge_idle, if_pos ht, hqidle, List.filter_cons]
      simp only [hkeep]
      rfl
    exact ⟨_, Get_ok_of_idle_cons hco⟩
  · have hco : ((PooledConnection.Close p c t1).purge t2).idle =
        ⟨c, t1⟩ :: p.idle := by
      rw [purge_idle, if_neg ht, hqidle]
    exact ⟨_, Get_ok_of_idle_cons hco⟩

/-- C4 witness: the LIFO round-trip on a fresh pool with no idle timeout. -/
theorem release_then_acquire_returns_same_client_witness :
    (⟨4, false⟩ : Client).Errored = false ∧
    ((CreatePool 0).IdleTimeout ≤ 0 ∨ (1:Int) < 0 + (CreatePool 0).IdleTimeout) ∧
    ∃ p', (PooledConnection.Close (CreatePool 0) ⟨4, false⟩ 0).Get 1
        (Except.error 0) = .ok ⟨4, false⟩ p' :=
  ⟨rfl, by decide,
   release_then_acquire_returns_same_client (CreatePool 0) ⟨4, false⟩ 0 1
     (Except.error 0) rfl (by decide)⟩

/-- C5: `purge` is the identity on the idle list when `IdleTimeout ≤ 0`;
when `IdleTimeout > 0` the resulting idle list keeps exactly the prior
entries that are non-errored and whose idled-at time plus the timeout is
strictly after `now`, in their original relative order. -/
theorem purge_filters_idle_list (p : Pool) (now : Int) :
    (p.purge now).idle =
      if 0 < p.IdleTimeout then
        p.idle.filter (fun v => !v.pc.Errored && decide (now < v.t + p.IdleTimeout))
      else p.idle :=
  purge_idle p now

/-- Pool whose single idle entry is errored but not expired. -/
def cexPool6 : Pool :=
  { MaxActive := 10, IdleTimeout := 1, idle := [⟨⟨0, true⟩, 5⟩],
    Active := 0, condInit := false, closed := [], signals := 0 }

/-- C6 counterexample: a purge pass drops an errored idle entry (`continue`
in the loop) without ever invoking its connection's close operation, so not
every removed entry is closed before removal. -/
theorem purge_removes_errored_without_close :
    ¬ (∀ v ∈ cexPool6.idle, v ∉ (cexPool6.purge 5).idle →
        v.pc ∈ (cexPool6.purge 5).closed) := by
  decide

/-- C6 (amended): during a purge pass (`IdleTimeout > 0`), exactly those
entries that are non-errored and past the timeout have their connection
closed; entries dropped because their errored flag is set are removed from
the idle list without their close operation being invoked. -/
theorem purge_close_policy (p : Pool) (now : Int) (h : 0 < p.IdleTimeout) :
    (p.purge now).closed = p.closed ++
      (p.idle.filter (fun v => !v.pc.Errored &&
        !decide (now < v.t + p.IdleTimeout))).map (fun v => v.pc) ∧
    ∀ v ∈ p.idle, v.pc.Errored = true → v ∉ (p.purge now).idle := by
  constructor
  · rw [purge_closed, if_pos h]
  · intro v hv herrv hmem
    rw [purge_idle, if_pos h] at hmem
    have hpred := List.of_mem_filter hmem
    simp [herrv] at hpred

/-- Pool mixing an errored entry, an expired entry and a live entry. -/
def witPool6 : Pool :=
  { MaxActive := 10, IdleTimeout := 2,
    idle := [⟨⟨1, true⟩, 9⟩, ⟨⟨2, false⟩, 0⟩, ⟨⟨3, false⟩, 9⟩],
    Active := 0, condInit := false, closed := [], signals := 0 }

/-- C6 witness: the amended close policy at a concrete purge pass that drops
one errored and one expired entry and keeps one live entry. -/
theorem purge_close_policy_witness :
    0 < witPool6.IdleTimeout ∧
    ((witPool6.purge 10).closed = witPool6.closed ++
        (witPool6.idle.filter (fun v => !v.pc.Errored &&
          !decide ((10:Int) < v.t + witPool6.IdleTimeout))).map (fun v => v.pc) ∧
     ∀ v ∈ witPool6.idle, v.pc.Errored = true → v ∉ (witPool6.purge 10).idle) :=
  ⟨by decide, purge_close_policy witPool6 10 (by decide)⟩

/-- C7: releasing a handle (`PooledConnection.Close`) prepends its connection
with a fresh idled-at timestamp to the front of the idle list — even when the
connection's errored flag is already set, since `put` never inspects the
flag — decrements `Active` by one, signals one waiter when the condition
variable exists, and touches nothing else. -/
theorem handle_close_spec (p : Pool) (c : Client) (now : Int) :
    (PooledConnection.Close p c now).idle = ⟨c, now⟩ :: p.idle ∧
    (PooledConnection.Close p c now).Active = p.Active - 1 ∧
    (PooledConnection.Close p c now).signals =
      (if p.condInit then p.signals + 1 else p.signals) ∧
    (PooledConnection.Close p c now).closed = p.closed ∧
    (PooledConnection.Close p c now).MaxActive = p.MaxActive ∧
    (PooledConnection.Close p c now).IdleTimeout = p.IdleTimeout ∧
    (PooledConnection.Close p c now).condInit = p.condInit := by
  refine ⟨?_, ?_, ?_, ?_, ?_, ?_, ?_⟩ <;>
    simp [PooledConnection.Close, Pool.put, Pool.release]

/-- Pool whose single idle entry is both errored and past the timeout. -/
def cexPool8 : Pool :=
  { MaxActive := 10, IdleTimeout := 1, idle := [⟨⟨7, true⟩, 0⟩],
    Active := 0, condInit := false, closed := [], signals := 0 }

/-- C8 counterexample: a connection that sat in the idle list longer than
`IdleTimeout` but is also errored is dropped by the next `Get`'s purge
without being closed (the errored branch skips the close), so not every
over-idled connection is closed during the next Acquire's purge. -/
theorem expired_errored_entry_not_closed :
    ¬ (5:Int) < 0 + cexPool8.IdleTimeout ∧
    (cexPool8.Get 5 (Except.ok ⟨8, false⟩)).pool.idle = [] ∧
    (cexPool8.Get 5 (Except.ok ⟨8, false⟩)).pool.closed = [] := by
  exact ⟨by decide, by decide, by decide⟩

/-- C8 (amended): when `IdleTimeout > 0`, every idle entry past the timeout
is removed by the purge at the start of the next `Get` (so it is never
returned by that or any later `Get`); it is closed if non-errored, while an
errored expired entry is dropped without close. When no idle entry survives
the purge, a successful `Get` returns a freshly dialed connection. -/
theorem idle_expiry_policy (p : Pool) (now : Int) (h : 0 < p.IdleTimeout) :
    (∀ v ∈ p.idle, ¬ now < v.t + p.IdleTimeout →
        v ∉ (p.purge now).idle ∧
        (v.pc.Errored = false → v.pc ∈ (p.purge now).closed)) ∧
    ((∀ v ∈ p.idle, v.pc.Errored = true ∨ ¬ now < v.t + p.IdleTimeout) →
        ∀ d c p', p.Get now d = .ok c p' → d = Except.ok c) := by
  constructor
  · intro v hv hexp
    constructor
    · intro hmem
      rw [purge_idle, if_pos h] at hmem
      have hpred := List.of_mem_filter hmem
      simp only [Bool.and_eq_true, decide_eq_true_eq] at hpred
      exact hexp hpred.2
    · intro herrv
      rw [purge_closed, if_pos h]
      refine List.mem_append_right _ ?_
      refine List.mem_map.mpr ⟨v, ?_, rfl⟩
      refine List.mem_filter.mpr ⟨hv, ?_⟩
      simp [herrv, hexp]
  · intro hall d c p' hg
    have hnil : (p.purge now).idle = [] := by
      rw [purge_idle, if_pos h]
      rw [List.filter_eq_nil_iff]
      intro v hv
      rcases hall v hv with herrv | hexp
      · simp [herrv]
      · simp [hexp]
    rcases Get_ok_elim hg with ⟨conn, rest, hi, _, _⟩ | ⟨_, _, hd, _⟩
    · rw [hnil] at hi
      cases hi
    · exact hd

/-- Pool whose single idle entry is expired but healthy. -/
def witPool8 : Pool :=
  { MaxActive := 10, IdleTimeout := 1, idle := [⟨⟨6, false⟩, 0⟩],
    Active := 0, condInit := false, closed := [], signals := 0 }

/-- C8 witness: the amended expiry policy at a pool holding one expired
non-errored connection. -/
theorem idle_expiry_policy_witness :
    0 < witPool8.IdleTimeout ∧
    ((∀ v ∈ witPool8.idle, ¬ (5:Int) < v.t + witPool8.IdleTimeout →
        v ∉ (witPool8.purge 5).idle ∧
        (v.pc.Errored = false → v.pc ∈ (witPool8.purge 5).closed)) ∧
     ((∀ v ∈ witPool8.idle, v.pc.Errored = true ∨ ¬ (5:Int) < v.t + witPool8.IdleTimeout) →
        ∀ d c p', witPool8.Get 5 d = .ok c p' → d = Except.ok c)) :=
  ⟨by decide, idle_expiry_policy witPool8 5 (by decide)⟩

/-- C9: in every reachable state, the idle list is sorted by idled-at
timestamp in descending order (most recently returned first) — `Get`'s front
removal, `Close`'s prepend at the current time and `purge`'s
order-preserving filter all maintain it. -/
theorem idle_list_sorted_desc (ma tm t0 : Int) (s : PState)
    (h : Reach ma tm t0 s) :
    s.pool.idle.Pairwise (fun a b => b.t ≤ a.t) :=
  (reach_idleSorted h).1

/-- C9 witness: the ordering instantiated at a concrete reachable state. -/
theorem idle_list_sorted_desc_witness :
    (initState 10 2 0).pool.idle.Pairwise (fun a b => b.t ≤ a.t) :=
  idle_list_sorted_desc 10 2 0 (initState 10 2 0) Reach.init

/-- Pool with a negative `MaxActive`, nothing idle and nothing outstanding. -/
def witPool10 : Pool :=
  { MaxActive := -1, IdleTimeout := 0, idle := [], Active := 0,
    condInit := false, closed := [], signals := 0 }

/-- C10: with `MaxActive < 0`, an empty idle list and a non-negative
`Active` counter, `Get` reaches `cond.Wait()` — it never invokes the dial
collaborator (its outcome is independent of the dial result) and never
returns; a negative `MaxActive` behaves as zero capacity, not as
unlimited. -/
theorem get_blocks_on_negative_maxactive (p : Pool) (now : Int)
    (d : Except Int Client)
    (hmax : p.MaxActive < 0) (hidle : p.idle = []) (hact : 0 ≤ p.Active) :
    p.Get now d = .blocked { p.purge now with condInit := true } ∧
    ∀ d', p.Get now d = p.Get now d' := by
  have hpidle : (p.purge now).idle = [] := by
    rw [purge_idle]
    split <;> simp [hidle]
  have hneg : ¬ ((p.purge now).MaxActive = 0 ∨
      (p.purge now).Active < (p.purge now).MaxActive) := by
    simp only [purge_MaxActive, purge_Active]
    omega
  have hblocked : ∀ d0 : Except Int Client,
      p.Get now d0 = .blocked { p.purge now with condInit := true } := by
    intro d0
    simp only [Pool.Get, Pool.first, hpidle]
    rw [if_neg hneg]
  exact ⟨hblocked d, fun d' => by rw [hblocked d, hblocked d']⟩

/-- C10 witness: the blocking behaviour at a concrete pool with
`MaxActive = -1`. -/
theorem get_blocks_on_negative_maxactive_witness :
    witPool10.MaxActive < 0 ∧ witPool10.idle = [] ∧ 0 ≤ witPool10.Active ∧
    (witPool10.Get 3 (Except.error 0) =
        .blocked { witPool10.purge 3 with condInit := true } ∧
     ∀ d', witPool10.Get 3 (Except.error 0) = witPool10.Get 3 d') :=
  ⟨by decide, rfl, by decide,
   get_blocks_on_negative_maxactive witPool10 3 (Except.error 0) (by decide)
     rfl (by decide)⟩

end Gremgo
